import Mathlib

/-!
Verification of the EPG merger pipeline (`epg_merger.py`, with the legacy
variant `epg_merge.py`).

The Python program is shallowly embedded: an XML element is a tag plus an
attribute association list (attributes of one element have distinct keys,
as in a Python dict) plus an opaque payload standing for the element's
children; a feed is either a transport failure, a corrupt gzip archive,
an unparseable XML body, or a parsed list of root children; fallible
Python operations (`dict[...]` raising `KeyError`, `list.remove` raising
`ValueError`) are embedded in `Except String`.  Wall-clock instants are
exact rationals (seconds since the Unix epoch); `datetime` subtraction and
the `/ 3600` conversion to hours are exact rational arithmetic.
-/

namespace EpgMerger

/-- An XML element: its tag, its attributes (unique keys, like a Python
`dict`), and an opaque payload standing for its children/identity. -/
structure Element where
  tag : String
  attrs : List (String × String)
  payload : Nat := 0
deriving DecidableEq

/-- Python `element.get(key)`: the attribute value, or `None`. -/
def Element.get (e : Element) (k : String) : Option String :=
  (e.attrs.find? (fun p => p.1 == k)).map Prod.snd

/-- `tree.findall(tag)`: the direct children of the root carrying `tag`,
in document order. A parsed document is its root's child list. -/
def findall (doc : List Element) (t : String) : List Element :=
  doc.filter (fun e => e.tag == t)

/-! ### SourceSpec parser (`parse_source`) -/

/-- `DEFAULT_TIME_FRAME = 48` from `epg_merger.py`. -/
def DEFAULT_TIME_FRAME : Int := 48

/-- Digit run of a Python integer literal: digits with single underscores
allowed between digits (`int("1_0") = 10`, `int("1__0")` fails). -/
def digitsCore : Nat → List Char → Option Nat
  | acc, [] => some acc
  | acc, c :: rest =>
    if c.isDigit then digitsCore (10 * acc + (c.toNat - 48)) rest
    else if c = '_' then
      match rest with
      | d :: rest2 =>
        if d.isDigit then digitsCore (10 * acc + (d.toNat - 48)) rest2 else none
      | [] => none
    else none

/-- Unsigned part of Python `int(str)`: must start with a digit. -/
def pyIntCore : List Char → Option Nat
  | [] => none
  | c :: rest => if c.isDigit then digitsCore (c.toNat - 48) rest else none

/-- Python `str.strip()` on a character list (ASCII whitespace). -/
def pyStripChars (cs : List Char) : List Char :=
  ((cs.dropWhile Char.isWhitespace).reverse.dropWhile Char.isWhitespace).reverse

/-- Python `int(str)`: surrounding whitespace stripped, optional sign,
digits with underscores; `None` models `ValueError`. -/
def pyInt (s : String) : Option Int :=
  match pyStripChars s.toList with
  | '+' :: rest => (pyIntCore rest).map Int.ofNat
  | '-' :: rest => (pyIntCore rest).map (fun n => -(n : Int))
  | cs => (pyIntCore cs).map Int.ofNat

/-- Python `s.rpartition('=')[2]`: the substring after the last `'='`,
or the whole string when `s` has no `'='`. -/
def rpartitionTail (s : String) : String :=
  String.mk ((s.toList.reverse.takeWhile (fun c => c ≠ '=')).reverse)

/-- The time-frame computation of `parse_source`: `int` of the tail after
the last `'='` of the first line; on `ValueError` the sentinel `''` is
used, and both `''` and `0` are falsy, so they fall back to the default. -/
def timeFrameOfLine (l : String) : Int :=
  match pyInt (rpartitionTail l) with
  | some n => if n = 0 then DEFAULT_TIME_FRAME else n
  | none => DEFAULT_TIME_FRAME

/-- `line.partition('#')[0].strip()`. -/
def stripComment (l : String) : String :=
  String.mk (pyStripChars (l.toList.takeWhile (fun c => c ≠ '#')))

/-- Append `id` to the channel list of `url` unless already present
(`data_source[current_source].append(id_channel)` guarded by `not in`). -/
def addId (ds : List (String × List String)) (url id : String) :
    List (String × List String) :=
  ds.map (fun p => if p.1 = url then (p.1, if id ∈ p.2 then p.2 else p.2 ++ [id]) else p)

/-- The line loop of `parse_source`: ordered mapping URL → requested ids. -/
def parseDataLinesAux : List String → String → List (String × List String) →
    List (String × List String)
  | [], _, ds => ds
  | l :: rest, cur, ds =>
    let line := stripComment l
    if line = "" then parseDataLinesAux rest cur ds
    else if List.isPrefixOf "http".toList line.toList then
      if ds.any (fun p => p.1 = line) then parseDataLinesAux rest line ds
      else parseDataLinesAux rest line (ds ++ [(line, [])])
    else if cur ≠ "" then parseDataLinesAux rest cur (addId ds cur line)
    else parseDataLinesAux rest cur ds

/-- `parse_source`: the source file (as its list of lines) parsed into the
ordered URL → channel-id mapping and the time frame. -/
def parse_source (lines : List String) : List (String × List String) × Int :=
  (parseDataLinesAux lines "" [], timeFrameOfLine (lines.headD ""))

/-! ### `convert_date` (`datetime.strptime(s, '%Y%m%d%H%M%S %z')`) -/

def digitsToNat (cs : List Char) : Nat :=
  cs.foldl (fun a c => 10 * a + (c.toNat - 48)) 0

def isLeapYear (y : Nat) : Bool :=
  y % 4 == 0 && (y % 100 != 0 || y % 400 == 0)

def daysInMonth (y m : Nat) : Nat :=
  if m = 2 then (if isLeapYear y then 29 else 28)
  else if m = 4 ∨ m = 6 ∨ m = 9 ∨ m = 11 then 30
  else 31

/-- Days of the proleptic Gregorian calendar strictly before year `y`. -/
def daysBeforeYear (y : Nat) : Nat :=
  (y - 1) * 365 + (y - 1) / 4 - (y - 1) / 100 + (y - 1) / 400

def daysBeforeMonth (y m : Nat) : Nat :=
  (List.range (m - 1)).foldl (fun a i => a + daysInMonth y (i + 1)) 0

/-- `date(y, m, d).toordinal()`: day number with 0001-01-01 = 1. -/
def toOrdinal (y m d : Nat) : Nat :=
  daysBeforeYear y + daysBeforeMonth y m + d

/-- Seconds since the Unix epoch of a timezone-aware instant
(1970-01-01 has ordinal 719163). -/
def epochSeconds (y m d h mi s : Nat) (offMinutes : Int) : Int :=
  ((toOrdinal y m d : Int) - 719163) * 86400 + (h : Int) * 3600 +
    (mi : Int) * 60 + (s : Int) - offMinutes * 60

/-- `convert_date`: parse `'%Y%m%d%H%M%S %z'` (fixed-width timestamp plus
numeric UTC offset) to an aware instant, `None` on any failure. -/
def convert_date (str : String) : Option Int :=
  let cs := str.toList
  if cs.length = 20 then
    let yd := cs.take 4
    let md := (cs.drop 4).take 2
    let dd := (cs.drop 6).take 2
    let hd := (cs.drop 8).take 2
    let mid := (cs.drop 10).take 2
    let sd := (cs.drop 12).take 2
    let sp := (cs.drop 14).take 1
    let sg := (cs.drop 15).take 1
    let od := (cs.drop 16).take 4
    if (yd ++ md ++ dd ++ hd ++ mid ++ sd ++ od).all Char.isDigit ∧ sp = [' '] ∧
        (sg = ['+'] ∨ sg = ['-']) then
      let y := digitsToNat yd
      let mo := digitsToNat md
      let da := digitsToNat dd
      let ho := digitsToNat hd
      let mi := digitsToNat mid
      let se := digitsToNat sd
      let offAbs : Int := (digitsToNat (od.take 2) : Int) * 60 + (digitsToNat (od.drop 2) : Int)
      let off : Int := if sg = ['-'] then -offAbs else offAbs
      if 1 ≤ y ∧ y ≤ 9999 ∧ 1 ≤ mo ∧ mo ≤ 12 ∧ 1 ≤ da ∧ da ≤ daysInMonth y mo ∧
          ho ≤ 23 ∧ mi ≤ 59 ∧ se ≤ 59 ∧ offAbs < 1440 then
        some (epochSeconds y mo da ho mi se off)
      else none
    else none
  else none

/-! ### Channel/Programme extractor (`process_epgsource`) -/

/-- What a feed URL resolves to: a transport/HTTP/timeout failure (the
download returns `''`), a corrupt gzip archive, an unparseable XML body,
or a parsed document (the root's children). -/
inductive FeedContent where
  | unreachable : FeedContent
  | corruptGzip : FeedContent
  | unparseable : FeedContent
  | xml : List Element → FeedContent
deriving DecidableEq

/-- The channel walk: for each direct `channel` element whose `id`
attribute (`KeyError` when absent) is in `channel_to_process`, append it
to the shared channel section and `list.remove` its id from the
`channel_skipped` working copy (`ValueError` when already removed). -/
def processChannelsAux (ctp : List String) :
    List Element → List Element → List String →
    Except String (List Element × List String)
  | [], acc, skipped => .ok (acc, skipped)
  | e :: rest, acc, skipped =>
    match e.get "id" with
    | none => .error "KeyError: id"
    | some id =>
      if id ∈ ctp then
        if id ∈ skipped then
          processChannelsAux ctp rest (acc ++ [e]) (skipped.erase id)
        else .error "ValueError: list.remove(x): x not in list"
      else processChannelsAux ctp rest acc skipped

/-- Per-programme decision of the programme walk: `channel` attribute
(`KeyError` when absent) must be in the originally requested set; then
`start`/`stop` are converted, and with both parseable the record is kept
iff `start_delta < time_frame` and `stop_delta > 0` (deltas in hours),
otherwise it is kept unconditionally. -/
def programmeDecision (ctp : List String) (start : ℚ) (tf : Int) (p : Element) :
    Except String Bool :=
  match p.get "channel" with
  | none => .error "KeyError: channel"
  | some ch =>
    if ch ∈ ctp then
      match p.get "start" with
      | none => .error "KeyError: start"
      | some sa =>
        match p.get "stop" with
        | none => .error "KeyError: stop"
        | some so =>
          match convert_date sa, convert_date so with
          | some ps, some pe =>
            .ok (decide (((ps : ℚ) - start) / 3600 < (tf : ℚ) ∧
              0 < ((pe : ℚ) - start) / 3600))
          | _, _ => .ok true
    else .ok false

/-- The programme walk, appending retained records to the shared list. -/
def processProgrammesAux (ctp : List String) (start : ℚ) (tf : Int) :
    List Element → List Element → Except String (List Element)
  | [], acc => .ok acc
  | p :: rest, acc =>
    match programmeDecision ctp start tf p with
    | .error msg => .error msg
    | .ok true => processProgrammesAux ctp start tf rest (acc ++ [p])
    | .ok false => processProgrammesAux ctp start tf rest acc

/-- `process_epgsource`: gzip failure and parse failure return early
(soft, the shared sections are untouched); otherwise the channel walk is
run, then the programme walk.  An uncaught `KeyError`/`ValueError`
inside the walks propagates out (`Except.error`). -/
def process_epgsource (content : FeedContent) (channel_to_process : List String)
    (channel_section_xml programm_section_xml : List Element)
    (start : ℚ) (time_frame : Int) :
    Except String (List Element × List Element) :=
  match content with
  | .unreachable => .ok (channel_section_xml, programm_section_xml)
  | .corruptGzip => .ok (channel_section_xml, programm_section_xml)
  | .unparseable => .ok (channel_section_xml, programm_section_xml)
  | .xml doc =>
    match processChannelsAux channel_to_process (findall doc "channel")
        channel_section_xml channel_to_process with
    | .error msg => .error msg
    | .ok (newCh, _) =>
      match processProgrammesAux channel_to_process start time_frame
          (findall doc "programme") programm_section_xml with
      | .error msg => .error msg
      | .ok newPr => .ok (newCh, newPr)

/-! ### Feed fetcher (`download_file`) and the main loop -/

/-- `os.path.split(url)[1]`: the part after the last `'/'` (the whole
string when there is no `'/'`). -/
def urlBasename (url : String) : String :=
  String.mk ((url.toList.reverse.takeWhile (fun c => c ≠ '/')).reverse)

/-- `download_file`: an empty basename is rejected before any request is
made; a transport/HTTP/timeout failure also yields `''` (`none`).
Otherwise the staged feed content is available to the extractor. -/
def download_file (url : String) (fetch : String → FeedContent) : Option FeedContent :=
  if urlBasename url = "" then none
  else
    match fetch url with
    | .unreachable => none
    | c => some c

/-- The mutable accumulation state of `main`: `processed_channels`,
`channel_section_xml`, `programm_section_xml`. -/
structure RunState where
  processed : List String
  chSec : List Element
  prSec : List Element
deriving DecidableEq

/-- The per-feed deduplication of `main`: ids already in
`processed_channels` are dropped from this feed's request list. -/
def requestSet (processed channelList : List String) : List String :=
  channelList.filter (fun id => !processed.contains id)

/-- One iteration of the feed loop of `main`: download, dedup the request
list, and when the download succeeded run `process_epgsource` and extend
`processed_channels` by the whole request list (the extend is NOT guarded
by the extractor's soft failures). -/
def step (fetch : String → FeedContent) (start : ℚ) (tf : Int)
    (st : RunState) (src : String × List String) : Except String RunState :=
  match download_file src.1 fetch with
  | none => .ok st
  | some content =>
    match process_epgsource content (requestSet st.processed src.2)
        st.chSec st.prSec start tf with
    | .error msg => .error msg
    | .ok chpr => .ok ⟨st.processed ++ requestSet st.processed src.2, chpr.1, chpr.2⟩

/-- The feed loop of `main`, from a given accumulation state. -/
def runFeedsFrom (fetch : String → FeedContent) (start : ℚ) (tf : Int) :
    List (String × List String) → RunState → Except String RunState
  | [], st => .ok st
  | src :: rest, st =>
    match step fetch start tf st src with
    | .error msg => .error msg
    | .ok st2 => runFeedsFrom fetch start tf rest st2

/-- The feed loop of `main`, started from empty accumulators. -/
def runFeeds (fetch : String → FeedContent) (start : ℚ) (tf : Int)
    (sources : List (String × List String)) : Except String RunState :=
  runFeedsFrom fetch start tf sources ⟨[], [], []⟩

/-! ### Merge & serialize -/

/-- Sort key of the final channel sort: `c.attrib['id'].lower()`
(every accumulated channel element carries an `id`). -/
def channelKey (e : Element) : String :=
  ((e.get "id").getD "").toLower

/-- Sort key of the final programme sort:
`(p.attrib['channel'].lower(), p.attrib['start'])`. -/
def programmeKey (e : Element) : String × String :=
  (((e.get "channel").getD "").toLower, (e.get "start").getD "")

/-- Lexicographic comparison of Python string pairs. -/
def pairLe (x y : String × String) : Prop :=
  x.1 < y.1 ∨ (x.1 = y.1 ∧ x.2 ≤ y.2)

instance (x y : String × String) : Decidable (pairLe x y) := by
  unfold pairLe
  infer_instance

def channelLe (a b : Element) : Bool :=
  decide (channelKey a ≤ channelKey b)

def programmeLe (a b : Element) : Bool :=
  decide (pairLe (programmeKey a) (programmeKey b))

/-- `sorted(channel_section_xml, key=...)` (Python's sort is a stable
mergesort). -/
def sortedChannels (l : List Element) : List Element :=
  l.mergeSort channelLe

/-- `sorted(programm_section_xml, key=...)`. -/
def sortedProgrammes (l : List Element) : List Element :=
  l.mergeSort programmeLe

/-- The children of the output `tv` root: all sorted channels followed by
all sorted programmes. -/
def mergedChildren (st : RunState) : List Element :=
  sortedChannels st.chSec ++ sortedProgrammes st.prSec

/-- The whole run after `parse_source`: feed loop, then the merged
document (its root's children). -/
def runOutput (fetch : String → FeedContent) (start : ℚ) (tf : Int)
    (sources : List (String × List String)) : Except String (List Element) :=
  (runFeeds fetch start tf sources).map mergedChildren

/-! ### The legacy variant (`epg_merge.py`, `extract_channels_from_xml`) -/

/-- Channel walk of the legacy extractor: `channel.get('id')` (`None`
safe), membership and removal both against the same shrinking set. -/
def legacyChannelsAux : List Element → List Element → List String →
    List Element × List String
  | [], acc, remaining => (acc, remaining)
  | e :: rest, acc, remaining =>
    match e.get "id" with
    | some id =>
      if id ∈ remaining then legacyChannelsAux rest (acc ++ [e]) (remaining.erase id)
      else legacyChannelsAux rest acc remaining
    | none => legacyChannelsAux rest acc remaining

/-- `extract_channels_from_xml`: channels whose id is in the (set-valued)
request set, first occurrence only; programmes whose `channel` attribute
is among the extracted channels' ids.  No time filter. -/
def extract_channels_from_xml (doc : List Element) (channels_to_extract : List String) :
    List Element × List Element :=
  let chres := legacyChannelsAux (findall doc "channel") [] channels_to_extract.dedup
  let ids := chres.1.filterMap (fun c => c.get "id")
  let progs := (findall doc "programme").filter (fun p =>
    match p.get "channel" with
    | some c => ids.contains c
    | none => false)
  (chres.1, progs)

/-! ## Properties of the programme walk -/

/-- The time-window obligation carried by every retained programme: when
both timestamps parse, the airing interval met the strict window test. -/
def KeptOK (start : ℚ) (tf : Int) (q : Element) : Prop :=
  ∀ sa so ps pe, q.get "start" = some sa → q.get "stop" = some so →
    convert_date sa = some ps → convert_date so = some pe →
    (((ps : ℚ) - start) / 3600 < (tf : ℚ) ∧ 0 < ((pe : ℚ) - start) / 3600)

theorem programmeDecision_true_spec (ctp : List String) (start : ℚ) (tf : Int)
    (q : Element) (h : programmeDecision ctp start tf q = .ok true) :
    (∃ ch, q.get "channel" = some ch ∧ ch ∈ ctp) ∧
    (q.get "start").isSome ∧ (q.get "stop").isSome ∧ KeptOK start tf q :=
  by
  unfold programmeDecision at h
  cases hch : q.get "channel" with
  | none => simp only [hch] at h; simp at h
  | some ch =>
    simp only [hch] at h
    by_cases hin : ch ∈ ctp
    · rw [if_pos hin] at h
      cases hsa : q.get "start" with
      | none => simp only [hsa] at h; simp at h
      | some sa =>
        simp only [hsa] at h
        cases hso : q.get "stop" with
        | none => simp only [hso] at h; simp at h
        | some so =>
          simp only [hso] at h
          refine ⟨⟨ch, rfl, hin⟩, by simp [hsa], by simp [hso], ?_⟩
          intro sa' so' ps' pe' hsa' hso' hps' hpe'
          have esa : sa = sa' := Option.some.inj (hsa.symm.trans hsa')
          have eso : so = so' := Option.some.inj (hso.symm.trans hso')
          rw [← esa] at hps'
          rw [← eso] at hpe'
          simp only [hps', hpe'] at h
          have hde : decide (((ps' : ℚ) - start) / 3600 < (tf : ℚ) ∧
              0 < ((pe' : ℚ) - start) / 3600) = true := Except.ok.inj h
          exact of_decide_eq_true hde
    · rw [if_neg hin] at h
      exact absurd (Except.ok.inj h) (by simp)

theorem programmeDecision_isOk (ctp : List String) (start : ℚ) (tf : Int)
    (p : Element) (h1 : (p.get "channel").isSome) (h2 : (p.get "start").isSome)
    (h3 : (p.get "stop").isSome) :
    ∃ b, programmeDecision ctp start tf p = .ok b :=
  by
  rcases Option.isSome_iff_exists.mp h1 with ⟨ch, hch⟩
  rcases Option.isSome_iff_exists.mp h2 with ⟨sa, hsa⟩
  rcases Option.isSome_iff_exists.mp h3 with ⟨so, hso⟩
  unfold programmeDecision
  simp only [hch, hsa, hso]
  by_cases hin : ch ∈ ctp
  · rw [if_pos hin]
    cases convert_date sa with
    | none => exact ⟨true, rfl⟩
    | some ps =>
      cases convert_date so with
      | none => exact ⟨true, rfl⟩
      | some pe => exact ⟨_, rfl⟩
  · rw [if_neg hin]; exact ⟨false, rfl⟩

theorem processProgrammesAux_mem (ctp : List String) (start : ℚ) (tf : Int) :
    ∀ (l acc out : List Element),
      processProgrammesAux ctp start tf l acc = .ok out →
      ∀ q, q ∈ out ↔ q ∈ acc ∨ (q ∈ l ∧ programmeDecision ctp start tf q = .ok true) :=
  by
  intro l
  induction l with
  | nil =>
    intro acc out h q
    simp only [processProgrammesAux] at h
    simp [← Except.ok.inj h]
  | cons p rest ih =>
    intro acc out h q
    cases hd : programmeDecision ctp start tf p with
    | error msg => simp [processProgrammesAux, hd] at h
    | ok b =>
      cases b with
      | true =>
        simp only [processProgrammesAux, hd] at h
        have := ih (acc ++ [p]) out h q
        rw [this]
        simp only [List.mem_append, List.mem_cons, List.not_mem_nil, or_false,
          List.mem_singleton]
        constructor
        · rintro (⟨hq | hq⟩ | ⟨hq, hdq⟩)
          · exact Or.inl hq
          · exact Or.inr ⟨Or.inl hq, hq ▸ hd⟩
          · exact Or.inr ⟨Or.inr hq, hdq⟩
        · rintro (hq | ⟨hq | hq, hdq⟩)
          · exact Or.inl (Or.inl hq)
          · exact Or.inl (Or.inr hq)
          · exact Or.inr ⟨hq, hdq⟩
      | false =>
        simp only [processProgrammesAux, hd] at h
        have := ih acc out h q
        rw [this]
        simp only [List.mem_cons]
        constructor
        · rintro (hq | ⟨hq, hdq⟩)
          · exact Or.inl hq
          · exact Or.inr ⟨Or.inr hq, hdq⟩
        · rintro (hq | ⟨hq | hq, hdq⟩)
          · exact Or.inl hq
          · exfalso; rw [hq, hd] at hdq; exact absurd (Except.ok.inj hdq) (by simp)
          · exact Or.inr ⟨hq, hdq⟩

theorem processProgrammesAux_all (ctp : List String) (start : ℚ) (tf : Int) :
    ∀ (l acc : List Element),
      (∀ p ∈ l, programmeDecision ctp start tf p = .ok true) →
      processProgrammesAux ctp start tf l acc = .ok (acc ++ l) :=
  by
  intro l
  induction l with
  | nil => intro acc _; simp [processProgrammesAux]
  | cons p rest ih =>
    intro acc h
    have hd : programmeDecision ctp start tf p = .ok true := h p (by simp)
    simp only [processProgrammesAux, hd]
    have := ih (acc ++ [p]) (fun q hq => h q (by simp [hq]))
    rw [this]
    simp

theorem processProgrammesAux_isOk (ctp : List String) (start : ℚ) (tf : Int) :
    ∀ (l acc : List Element),
      (∀ p ∈ l, (p.get "channel").isSome ∧ (p.get "start").isSome ∧ (p.get "stop").isSome) →
      ∃ out, processProgrammesAux ctp start tf l acc = .ok out :=
  by
  intro l
  induction l with
  | nil => intro acc _; exact ⟨acc, rfl⟩
  | cons p rest ih =>
    intro acc h
    obtain ⟨h1, h2, h3⟩ := h p (by simp)
    obtain ⟨b, hb⟩ := programmeDecision_isOk ctp start tf p h1 h2 h3
    cases b with
    | true =>
      obtain ⟨out, hout⟩ := ih (acc ++ [p]) (fun q hq => h q (by simp [hq]))
      exact ⟨out, by simp only [processProgrammesAux, hb]; exact hout⟩
    | false =>
      obtain ⟨out, hout⟩ := ih acc (fun q hq => h q (by simp [hq]))
      exact ⟨out, by simp only [processProgrammesAux, hb]; exact hout⟩

/-! ## Properties of the channel walk -/

theorem processChannelsAux_spec (ctp : List String) :
    ∀ (l acc : List Element) (skipped : List String) (res : List Element) (sk : List String),
      skipped.Nodup →
      processChannelsAux ctp l acc skipped = .ok (res, sk) →
      ∃ new, res = acc ++ new ∧ sk.Nodup ∧ (∀ x ∈ sk, x ∈ skipped) ∧
        (∀ e ∈ new, e ∈ l ∧ ∃ id, e.get "id" = some id ∧ id ∈ ctp ∧ id ∈ skipped ∧ id ∉ sk) ∧
        (new.filterMap (fun e => e.get "id")).Nodup :=
  by
  intro l
  induction l with
  | nil =>
    intro acc skipped res sk hnd h
    simp only [processChannelsAux] at h
    obtain ⟨h1, h2⟩ := Prod.mk.inj (Except.ok.inj h)
    refine ⟨[], by simp [h1.symm], h2 ▸ hnd, by simp [h2.symm], by simp, by simp⟩
  | cons e rest ih =>
    intro acc skipped res sk hnd h
    cases hge : e.get "id" with
    | none => simp only [processChannelsAux, hge] at h; simp at h
    | some id =>
      by_cases hid : id ∈ ctp
      · by_cases hsk : id ∈ skipped
        · have h2 : processChannelsAux ctp rest (acc ++ [e]) (skipped.erase id) = .ok (res, sk) := by
            simpa only [processChannelsAux, hge, if_pos hid, if_pos hsk] using h
          obtain ⟨new', hres, hsknd, hsksub, hprops, hidsnd⟩ :=
            ih (acc ++ [e]) (skipped.erase id) res sk (hnd.erase id) h2
          refine ⟨e :: new', by simp [hres], hsknd, ?_, ?_, ?_⟩
          · exact fun x hx => (List.erase_subset id skipped) (hsksub x hx)
          · intro q hq
            rcases List.mem_cons.mp hq with hq | hq
            · subst hq
              refine ⟨by simp, id, hge, hid, hsk, fun hmem => ?_⟩
              exact hnd.not_mem_erase (hsksub id hmem)
            · obtain ⟨hmem, id', hgq, hid', hsk', hnsk'⟩ := hprops q hq
              exact ⟨by simp [hmem], id', hgq, hid', List.mem_of_mem_erase hsk', hnsk'⟩
          · simp only [List.filterMap_cons, hge]
            refine List.nodup_cons.mpr ⟨fun hmem => ?_, hidsnd⟩
            rcases List.mem_filterMap.mp hmem with ⟨q, hq, hgq⟩
            obtain ⟨_, id', hgq', _, hsk', _⟩ := hprops q hq
            rw [hgq'] at hgq
            exact hnd.not_mem_erase (Option.some.inj hgq ▸ hsk')
        · simp only [processChannelsAux, hge, if_pos hid, if_neg hsk] at h; simp at h
      · have h2 : processChannelsAux ctp rest acc skipped = .ok (res, sk) := by
          simpa only [processChannelsAux, hge, if_neg hid] using h
        obtain ⟨new', hres, hsknd, hsksub, hprops, hidsnd⟩ := ih acc skipped res sk hnd h2
        refine ⟨new', hres, hsknd, hsksub, ?_, hidsnd⟩
        intro q hq
        obtain ⟨hmem, rest'⟩ := hprops q hq
        exact ⟨by simp [hmem], rest'⟩

theorem processChannelsAux_isOk (ctp : List String) :
    ∀ (l acc : List Element) (skipped : List String),
      ((l.filterMap (fun e => e.get "id")).Nodup) →
      (∀ e ∈ l, (e.get "id").isSome) →
      (∀ id ∈ ctp, id ∈ skipped ∨ ∀ e ∈ l, e.get "id" ≠ some id) →
      ∃ r, processChannelsAux ctp l acc skipped = .ok r :=
  by
  intro l
  induction l with
  | nil => intro acc skipped _ _ _; exact ⟨(acc, skipped), rfl⟩
  | cons e rest ih =>
    intro acc skipped hnd hsome hinv
    cases hge : e.get "id" with
    | none => exact absurd (hsome e (by simp)) (by simp [hge])
    | some id0 =>
      have hndrest : ((rest.filterMap (fun e => e.get "id")).Nodup) ∧
          id0 ∉ rest.filterMap (fun e => e.get "id") := by
        have := hnd
        simp only [List.filterMap_cons, hge] at this
        exact ⟨(List.nodup_cons.mp this).2, (List.nodup_cons.mp this).1⟩
      by_cases hid : id0 ∈ ctp
      · have hsk : id0 ∈ skipped := by
          rcases hinv id0 hid with h | h
          · exact h
          · exact absurd hge (h e (by simp))
        have hinv2 : ∀ id ∈ ctp, id ∈ skipped.erase id0 ∨ ∀ q ∈ rest, q.get "id" ≠ some id := by
          intro id hidmem
          by_cases heq : id = id0
          · subst heq
            refine Or.inr fun q hq hgq => hndrest.2 ?_
            exact List.mem_filterMap.mpr ⟨q, hq, hgq⟩
          · rcases hinv id hidmem with h | h
            · exact Or.inl ((List.mem_erase_of_ne heq).mpr h)
            · exact Or.inr fun q hq => h q (by simp [hq])
        obtain ⟨r, hr⟩ := ih (acc ++ [e]) (skipped.erase id0) hndrest.1
          (fun q hq => hsome q (by simp [hq])) hinv2
        exact ⟨r, by simp only [processChannelsAux, hge, if_pos hid, if_pos hsk]; exact hr⟩
      · obtain ⟨r, hr⟩ := ih acc skipped hndrest.1 (fun q hq => hsome q (by simp [hq]))
          (fun id hidmem => by
            rcases hinv id hidmem with h | h
            · exact Or.inl h
            · exact Or.inr fun q hq => h q (by simp [hq]))
        exact ⟨r, by simp only [processChannelsAux, hge, if_neg hid]; exact hr⟩

theorem processChannelsAux_all (ctp : List String) :
    ∀ (l acc : List Element) (skipped : List String),
      (∀ e ∈ l, ∃ id, e.get "id" = some id ∧ id ∈ ctp ∧ id ∈ skipped) →
      ((l.filterMap (fun e => e.get "id")).Nodup) →
      ∃ sk, processChannelsAux ctp l acc skipped = .ok (acc ++ l, sk) :=
  by
  intro l
  induction l with
  | nil => intro acc skipped _ _; exact ⟨skipped, by simp [processChannelsAux]⟩
  | cons e rest ih =>
    intro acc skipped hall hnd
    obtain ⟨id0, hge, hid, hsk⟩ := hall e (by simp)
    have hndrest : ((rest.filterMap (fun e => e.get "id")).Nodup) ∧
        id0 ∉ rest.filterMap (fun e => e.get "id") := by
      have := hnd
      simp only [List.filterMap_cons, hge] at this
      exact ⟨(List.nodup_cons.mp this).2, (List.nodup_cons.mp this).1⟩
    have hall2 : ∀ q ∈ rest, ∃ id, q.get "id" = some id ∧ id ∈ ctp ∧ id ∈ skipped.erase id0 := by
      intro q hq
      obtain ⟨id, hgq, hidq, hskq⟩ := hall q (by simp [hq])
      have hne : id ≠ id0 := by
        intro heq
        subst heq
        exact hndrest.2 (List.mem_filterMap.mpr ⟨q, hq, hgq⟩)
      exact ⟨id, hgq, hidq, (List.mem_erase_of_ne hne).mpr hskq⟩
    obtain ⟨sk, hr⟩ := ih (acc ++ [e]) (skipped.erase id0) hall2 hndrest.1
    refine ⟨sk, ?_⟩
    simp only [processChannelsAux, hge, if_pos hid, if_pos hsk]
    rw [hr]
    simp

theorem processChannelsAux_agree (ctp : List String) :
    ∀ (l acc : List Element) (skipped : List String) (res : List Element) (sk : List String),
      (∀ x ∈ skipped, x ∈ ctp) →
      processChannelsAux ctp l acc skipped = .ok (res, sk) →
      legacyChannelsAux l acc skipped = (res, sk) :=
  by
  intro l
  induction l with
  | nil =>
    intro acc skipped res sk _ h
    simp only [processChannelsAux] at h
    obtain ⟨h1, h2⟩ := Prod.mk.inj (Except.ok.inj h)
    simp [legacyChannelsAux, h1, h2]
  | cons e rest ih =>
    intro acc skipped res sk hsub h
    cases hge : e.get "id" with
    | none => simp only [processChannelsAux, hge] at h; simp at h
    | some id =>
      by_cases hsk : id ∈ skipped
      · have hid : id ∈ ctp := hsub id hsk
        have h2 : processChannelsAux ctp rest (acc ++ [e]) (skipped.erase id) = .ok (res, sk) := by
          simpa only [processChannelsAux, hge, if_pos hid, if_pos hsk] using h
        have := ih (acc ++ [e]) (skipped.erase id) res sk
          (fun x hx => hsub x (List.mem_of_mem_erase hx)) h2
        simp only [legacyChannelsAux, hge, if_pos hsk]
        exact this
      · by_cases hid : id ∈ ctp
        · simp only [processChannelsAux, hge, if_pos hid, if_neg hsk] at h; simp at h
        · have h2 : processChannelsAux ctp rest acc skipped = .ok (res, sk) := by
            simpa only [processChannelsAux, hge, if_neg hid] using h
          have := ih acc skipped res sk hsub h2
          simp only [legacyChannelsAux, hge, if_neg hsk]
          exact this

/-! ## The accumulated-state invariant of the feed loop -/

theorem mem_findall_tag (doc : List Element) (t : String) (e : Element)
    (h : e ∈ findall doc t) : e.tag = t :=
  by
  have := (List.mem_filter.mp h).2
  exact eq_of_beq this

theorem requestSet_nodup (processed cl : List String) (h : cl.Nodup) :
    (requestSet processed cl).Nodup :=
  h.filter _

theorem requestSet_not_processed (processed cl : List String) (id : String)
    (h : id ∈ requestSet processed cl) : id ∉ processed :=
  by
  have := (List.mem_filter.mp h).2
  simpa using this

/-- Everything the feed loop preserves about the shared accumulators. -/
structure Inv (start : ℚ) (tf : Int) (st : RunState) : Prop where
  chTag : ∀ e ∈ st.chSec, e.tag = "channel"
  chId : ∀ e ∈ st.chSec, ∃ id, e.get "id" = some id ∧ id ∈ st.processed
  chNodup : (st.chSec.filterMap (fun e => e.get "id")).Nodup
  prTag : ∀ p ∈ st.prSec, p.tag = "programme"
  prAttrs : ∀ p ∈ st.prSec,
    (p.get "channel").isSome ∧ (p.get "start").isSome ∧ (p.get "stop").isSome
  prWindow : ∀ p ∈ st.prSec, KeptOK start tf p

theorem Inv_init (start : ℚ) (tf : Int) : Inv start tf ⟨[], [], []⟩ :=
  ⟨by simp, by simp, by simp, by simp, by simp, by simp⟩

theorem processed_extend_inv (start : ℚ) (tf : Int) (st : RunState) (ctp : List String)
    (hI : Inv start tf st) :
    Inv start tf ⟨st.processed ++ ctp, st.chSec, st.prSec⟩ :=
  by
  refine ⟨hI.chTag, ?_, hI.chNodup, hI.prTag, hI.prAttrs, hI.prWindow⟩
  intro e he
  obtain ⟨id, hid, hmem⟩ := hI.chId e he
  exact ⟨id, hid, List.mem_append_left _ hmem⟩

theorem step_inv (fetch : String → FeedContent) (start : ℚ) (tf : Int)
    (st : RunState) (src : String × List String) (st2 : RunState)
    (hnd : src.2.Nodup) (hI : Inv start tf st)
    (h : step fetch start tf st src = .ok st2) :
    Inv start tf st2 ∧ (∀ x ∈ st.processed, x ∈ st2.processed) :=
  by
  unfold step at h
  cases hdl : download_file src.1 fetch with
  | none =>
    simp only [hdl] at h
    have : st = st2 := Except.ok.inj h
    subst this
    exact ⟨hI, fun x hx => hx⟩
  | some content =>
    simp only [hdl] at h
    cases hpe : process_epgsource content (requestSet st.processed src.2)
        st.chSec st.prSec start tf with
    | error msg => rw [hpe] at h; simp at h
    | ok chpr =>
      rw [hpe] at h
      have hst2 : st2 = ⟨st.processed ++ requestSet st.processed src.2, chpr.1, chpr.2⟩ :=
        (Except.ok.inj h).symm
      subst hst2
      refine ⟨?_, fun x hx => List.mem_append_left _ hx⟩
      cases content with
      | unreachable =>
        have : (st.chSec, st.prSec) = chpr := Except.ok.inj hpe
        rw [← this]
        exact processed_extend_inv start tf st _ hI
      | corruptGzip =>
        have : (st.chSec, st.prSec) = chpr := Except.ok.inj hpe
        rw [← this]
        exact processed_extend_inv start tf st _ hI
      | unparseable =>
        have : (st.chSec, st.prSec) = chpr := Except.ok.inj hpe
        rw [← this]
        exact processed_extend_inv start tf st _ hI
      | xml doc =>
        simp only [process_epgsource] at hpe
        cases hch : processChannelsAux (requestSet st.processed src.2)
            (findall doc "channel") st.chSec (requestSet st.processed src.2) with
        | error msg => simp only [hch] at hpe; simp at hpe
        | ok chres =>
          simp only [hch] at hpe
          cases hpr : processProgrammesAux (requestSet st.processed src.2) start tf
              (findall doc "programme") st.prSec with
          | error msg => simp only [hpr] at hpe; simp at hpe
          | ok newPr =>
            simp only [hpr] at hpe
            have hchpr : (chres.1, newPr) = chpr := Except.ok.inj hpe
            obtain ⟨new, hres, _, _, hprops, hidsnd⟩ :=
              processChannelsAux_spec (requestSet st.processed src.2)
                (findall doc "channel") st.chSec (requestSet st.processed src.2)
                chres.1 chres.2 (requestSet_nodup _ _ hnd) (by rw [hch])
            have hmemPr := processProgrammesAux_mem (requestSet st.processed src.2)
              start tf (findall doc "programme") st.prSec newPr hpr
            rw [← hchpr]
            constructor
            · -- chTag
              intro e he
              rw [hres] at he
              rcases List.mem_append.mp he with he | he
              · exact hI.chTag e he
              · exact mem_findall_tag doc "channel" e (hprops e he).1
            · -- chId
              intro e he
              rw [hres] at he
              rcases List.mem_append.mp he with he | he
              · obtain ⟨id, hid, hmem⟩ := hI.chId e he
                exact ⟨id, hid, List.mem_append_left _ hmem⟩
              · obtain ⟨_, id, hgid, hid, _, _⟩ := hprops e he
                exact ⟨id, hgid, List.mem_append_right _ hid⟩
            · -- chNodup
              rw [hres, List.filterMap_append]
              rw [List.nodup_append]
              refine ⟨hI.chNodup, hidsnd, ?_⟩
              intro x hx hx'
              rcases List.mem_filterMap.mp hx with ⟨e, he, hge⟩
              rcases List.mem_filterMap.mp hx' with ⟨e', he', hge'⟩
              obtain ⟨id, hid, hmem⟩ := hI.chId e he
              rw [hid] at hge
              obtain ⟨_, id', hgid', hid', _, _⟩ := hprops e' he'
              rw [hgid'] at hge'
              have e1 : x = id := (Option.some.inj hge).symm
              have e2 : x = id' := (Option.some.inj hge').symm
              subst e1
              rw [e2] at hmem
              exact requestSet_not_processed st.processed src.2 id' hid' hmem
            · -- prTag
              intro p hp
              rcases (hmemPr p).mp hp with hp | ⟨hp, _⟩
              · exact hI.prTag p hp
              · exact mem_findall_tag doc "programme" p hp
            · -- prAttrs
              intro p hp
              rcases (hmemPr p).mp hp with hp | ⟨_, hdec⟩
              · exact hI.prAttrs p hp
              · obtain ⟨⟨ch, hch', _⟩, hs, ht, _⟩ :=
                  programmeDecision_true_spec _ start tf p hdec
                exact ⟨by simp [hch'], hs, ht⟩
            · -- prWindow
              intro p hp
              rcases (hmemPr p).mp hp with hp | ⟨_, hdec⟩
              · exact hI.prWindow p hp
              · exact (programmeDecision_true_spec _ start tf p hdec).2.2.2

theorem runFeedsFrom_inv (fetch : String → FeedContent) (start : ℚ) (tf : Int) :
    ∀ (sources : List (String × List String)) (st st2 : RunState),
      (∀ s ∈ sources, s.2.Nodup) → Inv start tf st →
      runFeedsFrom fetch start tf sources st = .ok st2 →
      Inv start tf st2 :=
  by
  intro sources
  induction sources with
  | nil =>
    intro st st2 _ hI h
    simp only [runFeedsFrom] at h
    rw [← Except.ok.inj h]
    exact hI
  | cons src rest ih =>
    intro st st2 hnd hI h
    cases hstep : step fetch start tf st src with
    | error msg => simp only [runFeedsFrom, hstep] at h; simp at h
    | ok st' =>
      simp only [runFeedsFrom, hstep] at h
      have := step_inv fetch start tf st src st' (hnd src (by simp)) hI hstep
      exact ih st' st2 (fun s hs => hnd s (by simp [hs])) this.1 h

/-! ## Run completion under well-formed feed documents -/

/-- A feed document on which the extractor cannot raise: every `channel`
element carries an `id`, no two of them share one, and every `programme`
element carries `channel`, `start` and `stop`. -/
def WellFormedDoc (doc : List Element) : Prop :=
  ((findall doc "channel").filterMap (fun e => e.get "id")).Nodup ∧
  (∀ e ∈ findall doc "channel", (e.get "id").isSome) ∧
  (∀ p ∈ findall doc "programme",
    (p.get "channel").isSome ∧ (p.get "start").isSome ∧ (p.get "stop").isSome)

instance (doc : List Element) : Decidable (WellFormedDoc doc) := by
  unfold WellFormedDoc
  infer_instance

theorem process_epgsource_isOk (content : FeedContent) (ctp : List String)
    (chs prs : List Element) (start : ℚ) (tf : Int)
    (hwf : ∀ doc, content = .xml doc → WellFormedDoc doc) :
    ∃ r, process_epgsource content ctp chs prs start tf = .ok r :=
  by
  cases content with
  | unreachable => exact ⟨(chs, prs), rfl⟩
  | corruptGzip => exact ⟨(chs, prs), rfl⟩
  | unparseable => exact ⟨(chs, prs), rfl⟩
  | xml doc =>
    obtain ⟨h1, h2, h3⟩ := hwf doc rfl
    obtain ⟨⟨newCh, skl⟩, hch⟩ := processChannelsAux_isOk ctp (findall doc "channel")
      chs ctp h1 h2 (fun id hid => Or.inl hid)
    obtain ⟨newPr, hpr⟩ := processProgrammesAux_isOk ctp start tf
      (findall doc "programme") prs h3
    exact ⟨(newCh, newPr), by simp only [process_epgsource, hch, hpr]⟩

theorem download_file_some (url : String) (fetch : String → FeedContent)
    (content : FeedContent) (h : download_file url fetch = some content) :
    content = fetch url :=
  by
  unfold download_file at h
  by_cases hb : urlBasename url = ""
  · rw [if_pos hb] at h; simp at h
  · rw [if_neg hb] at h
    cases hf : fetch url with
    | unreachable => simp only [hf] at h; simp at h
    | corruptGzip => simp only [hf] at h; exact (Option.some.inj h).symm
    | unparseable => simp only [hf] at h; exact (Option.some.inj h).symm
    | xml doc => simp only [hf] at h; exact (Option.some.inj h).symm

theorem step_isOk (fetch : String → FeedContent) (start : ℚ) (tf : Int)
    (st : RunState) (src : String × List String)
    (hwf : ∀ url doc, fetch url = .xml doc → WellFormedDoc doc) :
    ∃ st2, step fetch start tf st src = .ok st2 :=
  by
  cases hdl : download_file src.1 fetch with
  | none => exact ⟨st, by simp only [step, hdl]⟩
  | some content =>
    have hc := download_file_some src.1 fetch content hdl
    obtain ⟨r, hr⟩ := process_epgsource_isOk content (requestSet st.processed src.2)
      st.chSec st.prSec start tf (fun doc hd => hwf src.1 doc (by rw [← hc]; exact hd))
    exact ⟨⟨st.processed ++ requestSet st.processed src.2, r.1, r.2⟩,
      by simp only [step, hdl, hr]⟩

theorem runFeedsFrom_isOk (fetch : String → FeedContent) (start : ℚ) (tf : Int)
    (hwf : ∀ url doc, fetch url = .xml doc → WellFormedDoc doc) :
    ∀ (sources : List (String × List String)) (st : RunState),
      ∃ st2, runFeedsFrom fetch start tf sources st = .ok st2 :=
  by
  intro sources
  induction sources with
  | nil => intro st; exact ⟨st, rfl⟩
  | cons src rest ih =>
    intro st
    obtain ⟨st1, h1⟩ := step_isOk fetch start tf st src hwf
    obtain ⟨st2, h2⟩ := ih st1
    exact ⟨st2, by simp only [runFeedsFrom, h1]; exact h2⟩

/-! ## Round-trip of the merged output through the extractor -/

/-- Every channel id the merged document mentions: ids of its channel
elements together with the channel attributes of its programme elements. -/
def mentionedIds (doc : List Element) : List String :=
  (((findall doc "channel").filterMap (fun e => e.get "id")) ++
    ((findall doc "programme").filterMap (fun p => p.get "channel"))).dedup

theorem findall_merged_channel (start : ℚ) (tf : Int) (st : RunState)
    (hI : Inv start tf st) :
    findall (mergedChildren st) "channel" = sortedChannels st.chSec :=
  by
  unfold mergedChildren findall
  rw [List.filter_append]
  have h1 : (sortedChannels st.chSec).filter (fun e => e.tag == "channel") =
      sortedChannels st.chSec := by
    rw [List.filter_eq_self]
    intro e he
    have : e ∈ st.chSec := (List.mem_mergeSort).mp he
    exact beq_iff_eq.mpr (hI.chTag e this)
  have h2 : (sortedProgrammes st.prSec).filter (fun e => e.tag == "channel") = [] := by
    rw [List.filter_eq_nil_iff]
    intro p hp
    have : p ∈ st.prSec := (List.mem_mergeSort).mp hp
    simp [hI.prTag p this]
  rw [h1, h2, List.append_nil]

theorem findall_merged_programme (start : ℚ) (tf : Int) (st : RunState)
    (hI : Inv start tf st) :
    findall (mergedChildren st) "programme" = sortedProgrammes st.prSec :=
  by
  unfold mergedChildren findall
  rw [List.filter_append]
  have h1 : (sortedChannels st.chSec).filter (fun e => e.tag == "programme") = [] := by
    rw [List.filter_eq_nil_iff]
    intro e he
    have : e ∈ st.chSec := (List.mem_mergeSort).mp he
    simp [hI.chTag e this]
  have h2 : (sortedProgrammes st.prSec).filter (fun e => e.tag == "programme") =
      sortedProgrammes st.prSec := by
    rw [List.filter_eq_self]
    intro p hp
    have : p ∈ st.prSec := (List.mem_mergeSort).mp hp
    exact beq_iff_eq.mpr (hI.prTag p this)
  rw [h1, h2, List.nil_append]

theorem programmeDecision_true_of (ctp : List String) (start : ℚ) (tf : Int)
    (p : Element) (ch : String)
    (hch : p.get "channel" = some ch) (hin : ch ∈ ctp)
    (hsa : (p.get "start").isSome) (hso : (p.get "stop").isSome)
    (hwin : KeptOK start tf p) (tf2 : Int) (htf : tf ≤ tf2) :
    programmeDecision ctp start tf2 p = .ok true :=
  by
  rcases Option.isSome_iff_exists.mp hsa with ⟨sa, hsa2⟩
  rcases Option.isSome_iff_exists.mp hso with ⟨so, hso2⟩
  unfold programmeDecision
  simp only [hch, hsa2, hso2, if_pos hin]
  cases hps : convert_date sa with
  | none => rfl
  | some ps =>
    cases hpe : convert_date so with
    | none => rfl
    | some pe =>
      obtain ⟨hlt, hgt⟩ := hwin sa so ps pe hsa2 hso2 hps hpe
      have hcast : (tf : ℚ) ≤ (tf2 : ℚ) := by exact_mod_cast htf
      have hdec : (((ps : ℚ) - start) / 3600 < (tf2 : ℚ) ∧ 0 < ((pe : ℚ) - start) / 3600) :=
        ⟨lt_of_lt_of_le hlt hcast, hgt⟩
      show Except.ok (decide (((ps : ℚ) - start) / 3600 < (tf2 : ℚ) ∧
        0 < ((pe : ℚ) - start) / 3600)) = Except.ok true
      rw [decide_eq_true hdec]

/-! ## Order facts for the final sort -/

theorem pairLe_trans (x y z : String × String) (h1 : pairLe x y) (h2 : pairLe y z) :
    pairLe x z :=
  by
  rcases h1 with h1 | ⟨e1, le1⟩
  · rcases h2 with h2 | ⟨e2, le2⟩
    · exact Or.inl (lt_trans h1 h2)
    · exact Or.inl (e2 ▸ h1)
  · rcases h2 with h2 | ⟨e2, le2⟩
    · exact Or.inl (e1 ▸ h2)
    · exact Or.inr ⟨e1.trans e2, le_trans le1 le2⟩

theorem pairLe_total (x y : String × String) : pairLe x y ∨ pairLe y x :=
  by
  rcases lt_trichotomy x.1 y.1 with h | h | h
  · exact Or.inl (Or.inl h)
  · rcases le_total x.2 y.2 with hle | hle
    · exact Or.inl (Or.inr ⟨h, hle⟩)
    · exact Or.inr (Or.inr ⟨h.symm, hle⟩)
  · exact Or.inr (Or.inl h)

/-! ## Concrete feeds and elements for counterexamples and witnesses -/

def chanA : Element := ⟨"channel", [("id", "a")], 10⟩

def chanA2 : Element := ⟨"channel", [("id", "a")], 20⟩

def chanB : Element := ⟨"channel", [("id", "b")], 30⟩

def chanNoId : Element := ⟨"channel", [], 40⟩

def progAXY : Element := ⟨"programme", [("channel", "a"), ("start", "x"), ("stop", "y")], 50⟩

def progInWindow : Element :=
  ⟨"programme", [("channel", "a"), ("start", "20300101120000 +0000"),
    ("stop", "20300101130000 +0000")], 60⟩

def progLate : Element :=
  ⟨"programme", [("channel", "a"), ("start", "20300110120000 +0000"),
    ("stop", "20300110130000 +0000")], 70⟩

def fetchParseFailThenGood : String → FeedContent :=
  fun u => if u = "http://a/feed.xml" then .unparseable else .xml [chanA]

def fetchDupChannel : String → FeedContent :=
  fun _ => .xml [⟨"channel", [("id", "a")], 0⟩, ⟨"channel", [("id", "a")], 1⟩]

def fetchMissingId : String → FeedContent := fun _ => .xml [chanNoId]

def fetchOrphan : String → FeedContent := fun _ => .xml [progAXY]

def fetchTwoFeeds : String → FeedContent :=
  fun u => if u = "http://a/feed.xml" then .xml [chanA] else .xml [chanA2, chanB]

def fetchGood : String → FeedContent := fun _ => .xml [chanA, progAXY]

/-! ## The claims -/

/-- C1: the claim fails on the code.  After a feed whose download
succeeded but whose XML body failed to parse, `main` still runs
`processed_channels.extend(channel_to_process)` (the extend is guarded
only by the download, not by the extractor's soft return), so the feed's
requested id `a` is marked processed and a later feed offering `a` has it
filtered out as a duplicate: the final state keeps `a` in the processed
set and contains no channel record at all. -/
theorem C1_parse_failure_still_marks_processed :
    runFeeds fetchParseFailThenGood 0 48
      [("http://a/feed.xml", ["a"]), ("http://b/feed.xml", ["a"])] =
      .ok ⟨["a"], [], []⟩ := by rfl

/-- C2: the claim fails on the code.  When a requested id occurs twice as
a `channel` element the membership test uses the full request list while
the removal uses the depleted `channel_skipped` working copy, so the
second occurrence is appended again and `list.remove` raises an uncaught
`ValueError`, aborting the run instead of taking only the first match. -/
theorem C2_duplicate_channel_elements_crash :
    runFeeds fetchDupChannel 0 48 [("http://a/feed.xml", ["a"])] =
      .error "ValueError: list.remove(x): x not in list" := by rfl

/-- C3: in every completed run whose per-feed request lists are
duplicate-free, an id already in `processed_channels` is excluded from
every later feed's request set before extraction, and the ids of the
accumulated channel records are pairwise distinct — the id never appears
twice and the surviving record is the earlier-listed feed's. -/
theorem C3_cross_source_dedup (fetch : String → FeedContent) (start : ℚ) (tf : Int)
    (sources : List (String × List String)) (st : RunState)
    (hnd : ∀ s ∈ sources, s.2.Nodup)
    (h : runFeeds fetch start tf sources = .ok st) :
    (st.chSec.filterMap (fun e => e.get "id")).Nodup ∧
    (∀ (processed channelList : List String) (id : String),
      id ∈ processed → id ∉ requestSet processed channelList) :=
  by
  have hI : Inv start tf st :=
    runFeedsFrom_inv fetch start tf sources ⟨[], [], []⟩ st hnd (Inv_init start tf) h
  refine ⟨hI.chNodup, ?_⟩
  intro processed channelList id hmem hreq
  exact requestSet_not_processed processed channelList id hreq hmem

theorem C3_cross_source_dedup_witness :
    ((RunState.mk ["a", "b"] [chanA, chanB] []).chSec.filterMap
      (fun e => e.get "id")).Nodup :=
  (C3_cross_source_dedup fetchTwoFeeds 0 48
    [("http://a/feed.xml", ["a"]), ("http://b/feed.xml", ["a", "b"])]
    ⟨["a", "b"], [chanA, chanB], []⟩ (by decide) (by rfl)).1

/-- C4: for a programme in the walk whose `channel` attribute is in the
feed's requested set: when both `start` and `stop` parse under
`%Y%m%d%H%M%S %z`, the record is in the output iff
`(start − pipeline_start)/3600 < TimeFrame` and
`(stop − pipeline_start)/3600 > 0`, both strict; when either fails to
parse, the record is always in the output. -/
theorem C4_programme_time_window (ctp : List String) (start : ℚ) (tf : Int)
    (l out : List Element) (p : Element) (ch sa so : String)
    (hok : processProgrammesAux ctp start tf l [] = .ok out)
    (hp : p ∈ l) (hch : p.get "channel" = some ch) (hin : ch ∈ ctp)
    (hsa : p.get "start" = some sa) (hso : p.get "stop" = some so) :
    (∀ ps pe : Int, convert_date sa = some ps → convert_date so = some pe →
      (p ∈ out ↔ (((ps : ℚ) - start) / 3600 < (tf : ℚ) ∧
        0 < ((pe : ℚ) - start) / 3600))) ∧
    ((convert_date sa = none ∨ convert_date so = none) → p ∈ out) :=
  by
  have hmem := processProgrammesAux_mem ctp start tf l [] out hok p
  have hmem2 : p ∈ out ↔ programmeDecision ctp start tf p = .ok true := by
    rw [hmem]; simp [hp]
  constructor
  · intro ps pe hps hpe
    rw [hmem2]
    unfold programmeDecision
    simp only [hch, if_pos hin, hsa, hso, hps, hpe]
    constructor
    · intro h2; exact of_decide_eq_true (Except.ok.inj h2)
    · intro h2; rw [decide_eq_true h2]
  · intro hnone
    rw [hmem2]
    unfold programmeDecision
    simp only [hch, if_pos hin, hsa, hso]
    rcases hnone with h2 | h2
    · simp only [h2]
    · cases hps : convert_date sa with
      | none => simp only [hps]
      | some ps => simp only [hps, h2]

theorem C4_programme_time_window_witness :
    processProgrammesAux ["a"] 1893456000 48 [progInWindow, progLate] [] =
      .ok [progInWindow] ∧ progInWindow ∈ [progInWindow] :=
  by
  have hc1 : convert_date "20300101120000 +0000" = some 1893499200 := by decide
  have hc2 : convert_date "20300101130000 +0000" = some 1893502800 := by decide
  have hc3 : convert_date "20300110120000 +0000" = some 1894276800 := by decide
  have hc4 : convert_date "20300110130000 +0000" = some 1894280400 := by decide
  have hw1 : (((1893499200 : Int) : ℚ) - 1893456000) / 3600 < ((48 : Int) : ℚ) ∧
      0 < (((1893502800 : Int) : ℚ) - 1893456000) / 3600 := by norm_num
  have hw2 : ¬((((1894276800 : Int) : ℚ) - 1893456000) / 3600 < ((48 : Int) : ℚ) ∧
      0 < (((1894280400 : Int) : ℚ) - 1893456000) / 3600) := by
    intro hcon
    have := hcon.1
    norm_num at this
  have hg1 : progInWindow.get "channel" = some "a" := by decide
  have hg2 : progInWindow.get "start" = some "20300101120000 +0000" := by decide
  have hg3 : progInWindow.get "stop" = some "20300101130000 +0000" := by decide
  have hg4 : progLate.get "channel" = some "a" := by decide
  have hg5 : progLate.get "start" = some "20300110120000 +0000" := by decide
  have hg6 : progLate.get "stop" = some "20300110130000 +0000" := by decide
  have hd1 : programmeDecision ["a"] 1893456000 48 progInWindow = .ok true := by
    unfold programmeDecision
    simp only [hg1, hg2, hg3, hc1, hc2]
    rw [if_pos (by decide : ("a" : String) ∈ ["a"])]
    rw [decide_eq_true hw1]
  have hd2 : programmeDecision ["a"] 1893456000 48 progLate = .ok false := by
    unfold programmeDecision
    simp only [hg4, hg5, hg6, hc3, hc4]
    rw [if_pos (by decide : ("a" : String) ∈ ["a"])]
    rw [decide_eq_false hw2]
  have hrun : processProgrammesAux ["a"] 1893456000 48 [progInWindow, progLate] [] =
      .ok [progInWindow] := by
    simp only [processProgrammesAux, hd1, hd2]
    rfl
  refine ⟨hrun, ?_⟩
  exact ((C4_programme_time_window ["a"] 1893456000 48 [progInWindow, progLate]
    [progInWindow] progInWindow "a" "20300101120000 +0000" "20300101130000 +0000"
    hrun (by simp) hg1 (by decide) hg2 hg3).1 1893499200 1893502800 hc1 hc2).mpr hw1

/-- C5 counterexample: the claim fails on the code.  A feed whose body
parses but whose `channel` element lacks an `id` attribute raises an
uncaught `KeyError` out of the per-feed processing step and aborts the
whole run, although the source file was fine — so malformed feed content
is not always handled locally. -/
theorem C5_malformed_element_aborts :
    runFeeds fetchMissingId 0 48 [("http://a/feed.xml", ["a"])] =
      .error "KeyError: id" := by rfl

/-- C5 (amended): for every run all of whose parsed feed documents are
well-formed (channel elements carry pairwise-distinct ids, programme
elements carry channel/start/stop), the run completes and produces the
output document; transport, HTTP, timeout, gzip and XML-parse failures
are all absorbed per feed and never abort the run. -/
theorem C5_run_completes (fetch : String → FeedContent) (start : ℚ) (tf : Int)
    (sources : List (String × List String))
    (hwf : ∀ url doc, fetch url = .xml doc → WellFormedDoc doc) :
    ∃ st, runFeeds fetch start tf sources = .ok st ∧
      runOutput fetch start tf sources = .ok (mergedChildren st) :=
  by
  obtain ⟨st, h⟩ := runFeedsFrom_isOk fetch start tf hwf sources ⟨[], [], []⟩
  have h2 : runFeeds fetch start tf sources = .ok st := h
  exact ⟨st, h2, by unfold runOutput; rw [h2]; rfl⟩

theorem C5_run_completes_witness :
    (∀ url doc, fetchGood url = .xml doc → WellFormedDoc doc) ∧
    ∃ st, runFeeds fetchGood 0 48 [("http://a/feed.xml", ["a", "b"]),
        ("http://nowhere/", ["c"])] = .ok st ∧
      runOutput fetchGood 0 48 [("http://a/feed.xml", ["a", "b"]),
        ("http://nowhere/", ["c"])] = .ok (mergedChildren st) :=
  by
  have hwf : ∀ url doc, fetchGood url = .xml doc → WellFormedDoc doc := by
    intro url doc h
    have h2 : [chanA, progAXY] = doc := FeedContent.xml.inj h
    rw [← h2]
    decide
  exact ⟨hwf, C5_run_completes fetchGood 0 48 _ hwf⟩

/-- C6: the output root's children are all sorted channel records followed
by all sorted programme records; channels pairwise ascending by
case-insensitive id, programmes pairwise ascending by the lexicographic
pair (case-insensitive channel, raw start string), each a permutation of
the accumulated records. -/
theorem C6_output_ordering (st : RunState) :
    mergedChildren st = sortedChannels st.chSec ++ sortedProgrammes st.prSec ∧
    (sortedChannels st.chSec).Pairwise (fun a b => channelKey a ≤ channelKey b) ∧
    (sortedChannels st.chSec).Perm st.chSec ∧
    (sortedProgrammes st.prSec).Pairwise
      (fun a b => pairLe (programmeKey a) (programmeKey b)) ∧
    (sortedProgrammes st.prSec).Perm st.prSec :=
  by
  refine ⟨rfl, ?_, List.mergeSort_perm _ _, ?_, List.mergeSort_perm _ _⟩
  · have hs : (st.chSec.mergeSort channelLe).Pairwise (fun a b => channelLe a b = true) :=
      List.sorted_mergeSort
        (fun a b c hab hbc => by
          unfold channelLe at hab hbc ⊢
          exact decide_eq_true (le_trans (of_decide_eq_true hab) (of_decide_eq_true hbc)))
        (fun a b => by
          unfold channelLe
          rcases le_total (channelKey a) (channelKey b) with h | h
          · rw [decide_eq_true h]; rfl
          · rw [decide_eq_true h, Bool.or_true])
        st.chSec
    exact hs.imp (fun hab => of_decide_eq_true hab)
  · have hs : (st.prSec.mergeSort programmeLe).Pairwise (fun a b => programmeLe a b = true) :=
      List.sorted_mergeSort
        (fun a b c hab hbc => by
          unfold programmeLe at hab hbc ⊢
          exact decide_eq_true (pairLe_trans _ _ _ (of_decide_eq_true hab)
            (of_decide_eq_true hbc)))
        (fun a b => by
          unfold programmeLe
          rcases pairLe_total (programmeKey a) (programmeKey b) with h | h
          · rw [decide_eq_true h]; rfl
          · rw [decide_eq_true h, Bool.or_true])
        st.prSec
    exact hs.imp (fun hab => of_decide_eq_true hab)

/-- C7 counterexample: the claim fails on the code.  With first line
`timeframe=-5` the tail parses as the negative integer −5; the claim
demands the default 48 for any value outside the non-negative integers,
but the code keeps −5 (only `ValueError` and the falsy 0 fall back). -/
theorem C7_negative_timeframe_kept :
    (parse_source ["timeframe=-5"]).2 = -5 ∧ ((-5 : Int) ≠ 48) :=
  ⟨by decide, by decide⟩

/-- C7 (amended): the parsed time frame equals the Python-int parse of the
substring after the last `=` of the first line (the whole line when it has
no `=`) whenever that parse succeeds with a nonzero value — negative
values included — and equals the default 48 when the parse fails or
yields 0. -/
theorem C7_time_frame (lines : List String) :
    (∀ n : Int, pyInt (rpartitionTail (lines.headD "")) = some n → n ≠ 0 →
      (parse_source lines).2 = n) ∧
    (pyInt (rpartitionTail (lines.headD "")) = none → (parse_source lines).2 = 48) ∧
    (pyInt (rpartitionTail (lines.headD "")) = some 0 → (parse_source lines).2 = 48) :=
  by
  have hp : (parse_source lines).2 = timeFrameOfLine (lines.headD "") := rfl
  refine ⟨?_, ?_, ?_⟩
  · intro n hn hnz
    rw [hp]
    unfold timeFrameOfLine
    simp only [hn]
    rw [if_neg hnz]
  · intro hn
    rw [hp]
    unfold timeFrameOfLine
    simp only [hn]
    rfl
  · intro hn
    rw [hp]
    unfold timeFrameOfLine
    simp only [hn]
    rfl

theorem C7_time_frame_witness : (parse_source ["timeframe=24"]).2 = 24 :=
  (C7_time_frame ["timeframe=24"]).1 24 (by decide) (by decide)

/-- C8 counterexample: the claim fails on the code.  A completed run can
emit a programme whose channel id has no channel element in the output
(the id was requested of a feed that lacked it, yet the feed's programmes
for it survive).  Re-extracting the merged output while requesting every
channel id the document contains as a channel element (here: none) drops
that programme even with a huge time frame, so the round-trip does not
reproduce the document. -/
theorem C8_roundtrip_fails_on_orphan :
    runFeeds fetchOrphan 0 48 [("http://a/feed.xml", ["a"])] =
      .ok ⟨["a"], [], [progAXY]⟩ ∧
    mergedChildren ⟨["a"], [], [progAXY]⟩ = [progAXY] ∧
    process_epgsource (.xml [progAXY])
      ((findall [progAXY] "channel").filterMap (fun e => e.get "id"))
      [] [] 0 1000000 = .ok ([], []) ∧
    ([progAXY] : List Element) ≠ [] :=
  by
  refine ⟨rfl, ?_, rfl, by decide⟩
  simp [mergedChildren, sortedChannels, sortedProgrammes]

/-- C8 (amended): running the extractor on the merged output of a
completed run (duplicate-free per-feed request lists), requesting every
channel id the document mentions — channel element ids together with
programme channel attributes — with the same pipeline start and any time
frame at least the original, succeeds and returns exactly the document's
channel elements and programme elements (permutations of the accumulated
records). -/
theorem C8_roundtrip (fetch : String → FeedContent) (start : ℚ) (tf : Int)
    (sources : List (String × List String)) (st : RunState) (tf2 : Int)
    (hnd : ∀ s ∈ sources, s.2.Nodup)
    (h : runFeeds fetch start tf sources = .ok st)
    (htf : tf ≤ tf2) :
    process_epgsource (.xml (mergedChildren st)) (mentionedIds (mergedChildren st))
      [] [] start tf2 = .ok (sortedChannels st.chSec, sortedProgrammes st.prSec) ∧
    (sortedChannels st.chSec).Perm st.chSec ∧
    (sortedProgrammes st.prSec).Perm st.prSec :=
  by
  have hI : Inv start tf st :=
    runFeedsFrom_inv fetch start tf sources ⟨[], [], []⟩ st hnd (Inv_init start tf) h
  have hfc := findall_merged_channel start tf st hI
  have hfp := findall_merged_programme start tf st hI
  have hchan_all : ∀ e ∈ sortedChannels st.chSec, ∃ id, e.get "id" = some id ∧
      id ∈ mentionedIds (mergedChildren st) ∧ id ∈ mentionedIds (mergedChildren st) := by
    intro e he
    obtain ⟨id, hgid, _⟩ := hI.chId e ((List.mem_mergeSort).mp he)
    have hidR : id ∈ mentionedIds (mergedChildren st) := by
      unfold mentionedIds
      rw [List.mem_dedup]
      exact List.mem_append_left _
        (List.mem_filterMap.mpr ⟨e, by rw [hfc]; exact he, hgid⟩)
    exact ⟨id, hgid, hidR, hidR⟩
  have hnodup2 : ((sortedChannels st.chSec).filterMap (fun e => e.get "id")).Nodup :=
    ((List.mergeSort_perm st.chSec channelLe).filterMap
      (fun e => e.get "id")).nodup_iff.mpr hI.chNodup
  obtain ⟨sk, hchok⟩ := processChannelsAux_all (mentionedIds (mergedChildren st))
    (sortedChannels st.chSec) [] (mentionedIds (mergedChildren st)) hchan_all hnodup2
  have hprog_all : ∀ p ∈ sortedProgrammes st.prSec,
      programmeDecision (mentionedIds (mergedChildren st)) start tf2 p = .ok true := by
    intro p hp
    have hpmem : p ∈ st.prSec := (List.mem_mergeSort).mp hp
    obtain ⟨hchS, hsaS, hsoS⟩ := hI.prAttrs p hpmem
    rcases Option.isSome_iff_exists.mp hchS with ⟨ch, hch⟩
    have hchR : ch ∈ mentionedIds (mergedChildren st) := by
      unfold mentionedIds
      rw [List.mem_dedup]
      exact List.mem_append_right _
        (List.mem_filterMap.mpr ⟨p, by rw [hfp]; exact hp, hch⟩)
    exact programmeDecision_true_of _ start tf p ch hch hchR hsaS hsoS
      (hI.prWindow p hpmem) tf2 htf
  have hprok := processProgrammesAux_all (mentionedIds (mergedChildren st)) start tf2
    (sortedProgrammes st.prSec) [] hprog_all
  refine ⟨?_, List.mergeSort_perm _ _, List.mergeSort_perm _ _⟩
  simp only [process_epgsource, hfc, hfp, hchok, hprok]
  simp

theorem C8_roundtrip_witness :
    process_epgsource (.xml (mergedChildren ⟨["a"], [chanA], [progAXY]⟩))
      (mentionedIds (mergedChildren ⟨["a"], [chanA], [progAXY]⟩))
      [] [] 0 1000000 =
      .ok (sortedChannels [chanA], sortedProgrammes [progAXY]) ∧
    (sortedChannels [chanA]).Perm [chanA] ∧
    (sortedProgrammes [progAXY]).Perm [progAXY] :=
  C8_roundtrip fetchGood 0 48 [("http://a/feed.xml", ["a"])]
    ⟨["a"], [chanA], [progAXY]⟩ 1000000 (by decide) (by rfl) (by decide)

/-- C9 counterexample: the claim fails on the code.  On a feed containing
a programme for requested id `a` but no channel element `a`, the current
extractor keeps the programme (its channel is in the requested set and its
timestamps fail to parse, so it is retained), while the legacy extractor
drops it (its channel is not among the extracted channels' ids): the two
variants do not select the same programme elements. -/
theorem C9_variants_disagree :
    process_epgsource (.xml [progAXY]) ["a"] [] [] 0 48 = .ok ([], [progAXY]) ∧
    extract_channels_from_xml [progAXY] ["a"] = ([], []) ∧
    (([], [progAXY]) : List Element × List Element) ≠ (([], []) : List Element × List Element) :=
  ⟨rfl, by decide, by decide⟩

/-- C9 (amended): the two variants select the same channel elements
whenever the current extractor's channel walk succeeds on a
duplicate-free request list; programme selection genuinely differs (the
legacy keeps a programme iff its channel is among the extracted channel
ids and applies no time filter). -/
theorem C9_channel_agreement (doc : List Element) (ctp : List String)
    (hnd : ctp.Nodup) (chs : List Element) (sk : List String)
    (h : processChannelsAux ctp (findall doc "channel") [] ctp = .ok (chs, sk)) :
    (extract_channels_from_xml doc ctp).1 = chs :=
  by
  have hagree := processChannelsAux_agree ctp (findall doc "channel") [] ctp chs sk
    (fun x hx => hx) h
  unfold extract_channels_from_xml
  rw [List.dedup_eq_self.mpr hnd, hagree]

theorem C9_channel_agreement_witness :
    (extract_channels_from_xml [chanA, progAXY] ["a"]).1 = [chanA] :=
  C9_channel_agreement [chanA, progAXY] ["a"] (by decide) [chanA] [] (by rfl)

/-- C10: a source URL whose path has no final filename component (an
empty basename, e.g. a URL ending in `/`) makes `download_file` return
the failure signal without consulting the network at all — the result is
the same for every fetch behaviour — and the feed-loop step leaves the
run state, its processed-channel set included, unchanged. -/
theorem C10_empty_basename_skipped (url : String) (h : urlBasename url = "") :
    (∀ fetch fetch2 : String → FeedContent,
      download_file url fetch = none ∧
      download_file url fetch = download_file url fetch2) ∧
    (∀ (fetch : String → FeedContent) (start : ℚ) (tf : Int) (st : RunState)
      (channelList : List String),
      step fetch start tf st (url, channelList) = .ok st) :=
  by
  have hd : ∀ fetch : String → FeedContent, download_file url fetch = none := by
    intro fetch
    unfold download_file
    rw [if_pos h]
  refine ⟨fun fetch fetch2 => ⟨hd fetch, (hd fetch).trans (hd fetch2).symm⟩, ?_⟩
  intro fetch start tf st channelList
  simp only [step, hd fetch]

theorem C10_empty_basename_witness :
    urlBasename "http://example.com/" = "" ∧
    step fetchGood 0 48 ⟨[], [], []⟩ ("http://example.com/", ["a"]) =
      .ok ⟨[], [], []⟩ :=
  ⟨by decide, (C10_empty_basename_skipped "http://example.com/" (by decide)).2
    fetchGood 0 48 ⟨[], [], []⟩ ["a"]⟩

end EpgMerger
